import Mathlib

/-!
Verification of the crawl-scope and link-classification engine of the
scrapersDemo repository.

Strings are modelled as lists of characters (`Str`).  The JavaScript `URL`
runtime class — an external platform collaborator of the code under
verification — is modelled by the record `URLRec` together with the
executable functions `parseURL` (WHATWG-style parsing of an absolute URL:
scheme, optional `//`-authority, path, query, fragment, with scheme and
hostname lower-cased) and `URLRec.href` (re-serialization).  All other
definitions are direct translations of the crawler source functions
(`normalizePathPrefix`, `getAllowedHostnames`, `getHostnameToPathPrefixes`,
`getHostnameToScopeTokens`, `isLikelyBinaryAsset`, `isInScope`,
`isSkippableScheme`, `assetMatchesScope`, the per-link body of
`requestHandler`, `transformRequestFunction`, `parseStartUrls`, and the
final sorted snapshot of the discovered-links set).
-/

namespace Crawler

/-- JavaScript strings, modelled as lists of characters. -/
abbrev Str := List Char

/-- Convenience injection of Lean string literals into the model. -/
def str (s : String) : Str := s.toList

/-- JS `String.prototype.toLowerCase`, character-wise (ASCII letters). -/
def toLowerStr (s : Str) : Str := s.map Char.toLower

/-- JS `s.startsWith(pat)`. -/
def strStartsWith (s pat : Str) : Bool := pat.isPrefixOf s

/-- JS `s.endsWith(pat)`. -/
def strEndsWith (s pat : Str) : Bool := pat.isSuffixOf s

/-- JS `s.includes(sub)` (substring containment). -/
def containsSub (s sub : Str) : Bool :=
  match s with
  | [] => sub.isEmpty
  | c :: rest => sub.isPrefixOf (c :: rest) || containsSub rest sub

/-- JS `s.split(d)` for a single-character separator. -/
def splitOnChar (d : Char) : Str → List Str
  | [] => [[]]
  | c :: rest =>
    if c = d then [] :: splitOnChar d rest
    else
      match splitOnChar d rest with
      | [] => [[c]]
      | x :: xs => (c :: x) :: xs

/-- JS `s.trim()`: strip leading and trailing whitespace. -/
def trimStr (s : Str) : Str :=
  ((s.dropWhile Char.isWhitespace).reverse.dropWhile Char.isWhitespace).reverse

/-! Character classes used by the URL model, phrased on code points:
`35 = '#'`, `43 = '+'`, `45 = '-'`, `46 = '.'`, `47 = '/'`, `58 = ':'`,
`63 = '?'`, `64 = '@'`, `91 = '['`, `93 = ']'`. -/

/-- Not the character `:`. -/
def notColon (c : Char) : Bool := c.toNat ≠ 58

/-- Not the character `#`. -/
def notHash (c : Char) : Bool := c.toNat ≠ 35

/-- Neither `#` nor `?`. -/
def notHashQm (c : Char) : Bool := c.toNat ≠ 35 && c.toNat ≠ 63

/-- One of `/`, `?`, `#`: ends the authority (host) part of a URL. -/
def isHostDelim (c : Char) : Bool := c.toNat = 47 || c.toNat = 63 || c.toNat = 35

/-- Negation of `isHostDelim`. -/
def notHostDelim (c : Char) : Bool := !(isHostDelim c)

/-- One of `:`, `@`, `[`, `]`: not supported inside a hostname by this model. -/
def isHostBad (c : Char) : Bool :=
  c.toNat = 58 || c.toNat = 64 || c.toNat = 91 || c.toNat = 93

/-- An ASCII letter, the legal first character of a URL scheme. -/
def isSchemeHead (c : Char) : Bool :=
  decide (65 ≤ c.toNat ∧ c.toNat ≤ 90) || decide (97 ≤ c.toNat ∧ c.toNat ≤ 122)

/-- Letter, digit, `+`, `-` or `.`: legal non-first scheme characters. -/
def isSchemeTail (c : Char) : Bool :=
  isSchemeHead c || decide (48 ≤ c.toNat ∧ c.toNat ≤ 57) ||
    c.toNat = 43 || c.toNat = 45 || c.toNat = 46

/-- A syntactically legal, nonempty URL scheme. -/
def schemeOk (s : Str) : Bool :=
  match s with
  | [] => false
  | c :: cs => isSchemeHead c && cs.all isSchemeTail

/-- The first character of `s` has code point `n`. -/
def headCodeIs (n : Nat) (s : Str) : Bool :=
  match s with
  | [] => false
  | c :: _ => c.toNat = n

/-- The first two characters of `s` have code points `m`, `n`. -/
def startsWith2Codes (m n : Nat) (s : Str) : Bool :=
  match s with
  | c :: d :: _ => c.toNat = m && d.toNat = n
  | _ => false

/-- A parsed absolute URL, as exposed by the JS `URL` class: `scheme` (the
`protocol` without its trailing `:`), whether a `//` authority is present,
`hostname`, `pathname`, `search` (empty or starting with `?`) and `hash`
(empty or starting with `#`). -/
structure URLRec where
  scheme : Str
  slashes : Bool
  hostname : Str
  pathname : Str
  search : Str
  hash : Str
  deriving DecidableEq, Repr

/-- Serialization, as read back by JS `u.href`. -/
def URLRec.href (u : URLRec) : Str :=
  u.scheme ++ [':'] ++ (if u.slashes then ['/', '/'] ++ u.hostname else []) ++
    u.pathname ++ u.search ++ u.hash

/-- The JS assignment `u.hash = ""`. -/
def URLRec.stripFragment (u : URLRec) : URLRec := { u with hash := [] }

/-- Split the post-path remainder of a URL into its `search` and `hash`. -/
def parseSearchHash (rest : Str) : Str × Str :=
  if headCodeIs 63 rest then
    ('?' :: rest.tail.takeWhile notHash, rest.tail.dropWhile notHash)
  else ([], rest)

/-- The JS `new URL(s)` constructor on an absolute URL string: returns
`none` where the constructor would throw.  Scheme and hostname are
lower-cased; a URL with an authority and an empty path gets pathname `/`. -/
def parseURL (s : Str) : Option URLRec :=
  let schemeRaw := s.takeWhile notColon
  let rest := s.dropWhile notColon
  if rest.isEmpty then none
  else if !schemeOk schemeRaw then none
  else
    let scheme := toLowerStr schemeRaw
    let afterColon := rest.tail
    if startsWith2Codes 47 47 afterColon then
      let rest2 := afterColon.drop 2
      let host := rest2.takeWhile notHostDelim
      let rest3 := rest2.dropWhile notHostDelim
      if host.isEmpty || host.any isHostBad then none
      else
        let path0 := rest3.takeWhile notHashQm
        let pathname := if path0.isEmpty then ['/'] else path0
        let sh := parseSearchHash (rest3.dropWhile notHashQm)
        some ⟨scheme, true, toLowerStr host, pathname, sh.1, sh.2⟩
    else
      let path0 := afterColon.takeWhile notHashQm
      let sh := parseSearchHash (afterColon.dropWhile notHashQm)
      some ⟨scheme, false, [], path0, sh.1, sh.2⟩

/-- JS `s.split("#")[0]`. -/
def beforeHash (s : Str) : Str := s.takeWhile notHash

/-- The URL Normalizer: `new URL(href).href.split("#")[0]` (absolute URL
with the fragment removed), `none` when parsing fails. -/
def normalizeHref (href : Str) : Option Str :=
  (parseURL href).map (fun u => beforeHash u.href)

/-- The loop body of `getAllowedHostnames`: add the hostname of a valid
seed URL to the set, silently skipping invalid seeds. -/
def addHost (hosts : List Str) (u : Str) : List Str :=
  match parseURL u with
  | some uo => if uo.hostname ∈ hosts then hosts else hosts ++ [uo.hostname]
  | none => hosts

/-- Source `getAllowedHostnames`: the set (dedup-on-insert list) of
hostnames of the syntactically valid seed URLs. -/
def getAllowedHostnames (urls : List Str) : List Str :=
  urls.foldl addHost []

/-- Source `normalizePathPrefix`: trim, then force a leading and a trailing
slash; the empty path becomes `/`. -/
def normalizePathPfx (pathname : Str) : Str :=
  if pathname.isEmpty then ['/']
  else
    let p := trimStr pathname
    let p1 := if strStartsWith p ['/'] then p else '/' :: p
    if strEndsWith p1 ['/'] then p1 else p1 ++ ['/']

/-- JS `Map.get`, on an association-list model of `Map`. -/
def alistFind {α : Type} (k : Str) : List (Str × α) → Option α
  | [] => none
  | (k', v) :: rest => if k' = k then some v else alistFind k rest

/-- JS `Map.set`, on an association-list model of `Map`. -/
def alistSet {α : Type} (k : Str) (v : α) : List (Str × α) → List (Str × α)
  | [] => [(k, v)]
  | (k', v') :: rest => if k' = k then (k, v) :: rest else (k', v') :: alistSet k v rest

/-- The loop body of `getHostnameToPathPrefixes`: record the normalized
path prefix of one valid seed under its hostname (dedup-on-push). -/
def addSeedPfx (m : List (Str × List Str)) (u : Str) : List (Str × List Str) :=
  match parseURL u with
  | some uo =>
    let pfx := normalizePathPfx (if uo.pathname.isEmpty then ['/'] else uo.pathname)
    let arr := (alistFind uo.hostname m).getD []
    if pfx ∈ arr then alistSet uo.hostname arr m
    else alistSet uo.hostname (arr ++ [pfx]) m
  | none => m

/-- Source `getHostnameToPathPrefixes`: hostname → list of normalized seed
path prefixes (dedup-on-push), invalid seeds skipped. -/
def getHostnameToPathPrefixes (urls : List Str) : List (Str × List Str) :=
  urls.foldl addSeedPfx []

/-- Source `getHostnameToScopeTokens`: hostname → set of lower-cased first
non-empty path segments of that host's prefixes. -/
def getHostnameToScopeTokens (hostPrefixes : List (Str × List Str)) :
    List (Str × List Str) :=
  hostPrefixes.map (fun hp =>
    (hp.1, hp.2.foldl (fun tokens p =>
      let seg := ((splitOnChar '/' p).filter (fun x => !x.isEmpty)).headD []
      if seg.isEmpty then tokens
      else
        let t := toLowerStr seg
        if t ∈ tokens then tokens else tokens ++ [t]) []))

/-- Source registry of non-HTML extensions. -/
def nonHtmlExts : List Str :=
  [str ".pdf", str ".doc", str ".docx", str ".xls", str ".xlsx", str ".csv",
   str ".zip", str ".rar", str ".7z", str ".jpg", str ".jpeg", str ".png",
   str ".gif", str ".webp", str ".svg", str ".mp4", str ".mov", str ".avi",
   str ".mp3", str ".wav", str ".m4a"]

/-- Source `isLikelyBinaryAsset`: lower-cased path ends in a known
non-HTML extension. -/
def isLikelyBinaryAsset (pathname : Str) : Bool :=
  let lower := toLowerStr pathname
  nonHtmlExts.any (fun ext => strEndsWith lower ext)

/-- Source `isInScope` (Scope Policy, page variant). -/
def isInScope (u : URLRec) (sameDomainOnly : Bool) (allowedHostnames : List Str)
    (hostPrefixes : List (Str × List Str)) : Bool :=
  if sameDomainOnly && !(decide (u.hostname ∈ allowedHostnames)) then false
  else
    match alistFind u.hostname hostPrefixes with
    | some prefixes =>
      if !prefixes.isEmpty then
        let normalizedPath :=
          normalizePathPfx (if u.pathname.isEmpty then ['/'] else u.pathname)
        prefixes.any (fun p => strStartsWith normalizedPath p)
      else true
    | none => true

/-- Source `isSkippableScheme`. -/
def isSkippableScheme (href : Str) : Bool :=
  let lower := toLowerStr href
  strStartsWith lower (str "javascript:") || strStartsWith lower (str "mailto:") ||
    strStartsWith lower (str "tel:") || strStartsWith lower (str "data:")

/-- Source `assetMatchesScope` (relaxed asset scope). -/
def assetMatchesScope (u : URLRec) (hostScopeTokens : List (Str × List Str)) : Bool :=
  match alistFind u.hostname hostScopeTokens with
  | none => true
  | some tokens =>
    if tokens.isEmpty then true
    else
      let lowerPath := toLowerStr u.pathname
      tokens.any (fun t => containsSub lowerPath t)

/-- The immutable scoping tables built in `main` from the seeds. -/
structure ScopeCfg where
  sameDomainOnly : Bool
  allowedHostnames : List Str
  hostPrefixes : List (Str × List Str)
  hostScopeTokens : List (Str × List Str)
  deriving DecidableEq, Repr

/-- The table construction in `main`. -/
def mkScopeCfg (startUrls : List Str) (sameDomainOnly : Bool) : ScopeCfg :=
  let hp := getHostnameToPathPrefixes startUrls
  ⟨sameDomainOnly, getAllowedHostnames startUrls, hp, getHostnameToScopeTokens hp⟩

/-- Discovery Set `record`: JS `Set.add` (idempotent insert, insertion
order preserved). -/
def record (s : List Str) (url : Str) : List Str :=
  if url ∈ s then s else s ++ [url]

/-- The per-href body of the `requestHandler` loop: skippable schemes and
unparseable hrefs are dropped; assets are recorded under the relaxed asset
scope, pages under the page Scope Policy. -/
def processHref (cfg : ScopeCfg) (discovered : List Str) (href : Str) : List Str :=
  if isSkippableScheme href then discovered
  else
    match parseURL href with
    | none => discovered
    | some u0 =>
      let absolute := beforeHash u0.href
      match parseURL absolute with
      | none => discovered
      | some u =>
        let isAsset := isLikelyBinaryAsset u.pathname
        let withinHost := !cfg.sameDomainOnly || decide (u.hostname ∈ cfg.allowedHostnames)
        if isAsset then
          if withinHost && assetMatchesScope u cfg.hostScopeTokens then
            record discovered u.href
          else discovered
        else
          if isInScope u cfg.sameDomainOnly cfg.allowedHostnames cfg.hostPrefixes then
            record discovered u.href
          else discovered

/-- The whole `for (const href of pageLinks)` loop. -/
def processLinks (cfg : ScopeCfg) (discovered : List Str) (hrefs : List Str) : List Str :=
  hrefs.foldl (processHref cfg) discovered

/-- Source `transformRequestFunction` (the Frontier Filter): strip the
fragment, reject non-http(s) schemes, out-of-scope URLs and assets; an
accepted request carries the fragment-stripped URL. -/
def transformRequest (cfg : ScopeCfg) (reqUrl : Str) : Option Str :=
  match parseURL reqUrl with
  | none => none
  | some u0 =>
    let u := u0.stripFragment
    let newUrl := u.href
    if !(u.scheme = str "http" || u.scheme = str "https") then none
    else if !(isInScope u cfg.sameDomainOnly cfg.allowedHostnames cfg.hostPrefixes) then none
    else if isLikelyBinaryAsset u.pathname then none
    else some newUrl

/-- `[...discoveredLinks].sort()`: the run-end sorted snapshot. -/
def snapshot (s : List Str) : List Str := List.insertionSort (· ≤ ·) s

/-- The error message of `parseStartUrls`. -/
def noSeedMsg : Str := str "No start URL provided. Pass a URL as a CLI arg or set START_URL."

/-- `process.argv.slice(2).filter(Boolean)`. -/
def cliFiltered (cliArgs : List Str) : List Str := cliArgs.filter (fun s => !s.isEmpty)

/-- `START_URL?.split(",").map(trim).filter(Boolean) ?? []`. -/
def envFiltered (startUrlEnv : Option Str) : List Str :=
  match startUrlEnv with
  | some v => ((splitOnChar ',' v).map trimStr).filter (fun s => !s.isEmpty)
  | none => []

/-- Source `parseStartUrls`: CLI args take priority over the env list; an
empty effective list is the fatal "no seed URLs" failure. -/
def parseStartUrls (cliArgs : List Str) (startUrlEnv : Option Str) :
    Except Str (List Str) :=
  let startUrls :=
    if (cliFiltered cliArgs).length > 0 then cliFiltered cliArgs
    else envFiltered startUrlEnv
  if startUrls.length = 0 then Except.error noSeedMsg else Except.ok startUrls

/-- The start of `main` up to the construction of the scoping tables:
seed parsing happens first, so a seed failure prevents table construction. -/
def mainStart (cliArgs : List Str) (startUrlEnv : Option Str)
    (sameDomainOnly : Bool) : Except Str ScopeCfg :=
  (parseStartUrls cliArgs startUrlEnv).map (fun urls => mkScopeCfg urls sameDomainOnly)

/-- The Scope Policy verdict as computed along the explicit per-page
extraction path of `requestHandler` (parse, strip the fragment by string
splitting, re-parse, then `isInScope`). -/
def extractionScopeVerdict (cfg : ScopeCfg) (href : Str) : Option Bool :=
  match parseURL href with
  | none => none
  | some u0 =>
    match parseURL (beforeHash u0.href) with
    | none => none
    | some u => some (isInScope u cfg.sameDomainOnly cfg.allowedHostnames cfg.hostPrefixes)

/-- The Scope Policy verdict as computed inside `transformRequestFunction`
(parse, clear `u.hash`, then `isInScope`). -/
def frontierScopeVerdict (cfg : ScopeCfg) (reqUrl : Str) : Option Bool :=
  match parseURL reqUrl with
  | none => none
  | some u0 =>
    some (isInScope u0.stripFragment cfg.sameDomainOnly cfg.allowedHostnames cfg.hostPrefixes)

/-- The spec's running example configuration: single seed
`https://example.com/dubai/` with `sameDomainOnly = true`. -/
def exampleCfg : ScopeCfg := mkScopeCfg [str "https://example.com/dubai/"] true

/-! Validity of parsed URL records: exactly the shape produced by
`parseURL`, and sufficient for `URLRec.href` to parse back to the same
record. -/

/-- A legal, already lower-cased scheme. -/
def validScheme (s : Str) : Bool := schemeOk s && decide (toLowerStr s = s)

/-- A legal `search` component: empty, or `?` followed by `#`-free text. -/
def validSearch (s : Str) : Bool :=
  match s with
  | [] => true
  | c :: q => c.toNat = 63 && q.all notHash

/-- A legal `hash` component: empty or starting with `#`. -/
def validHashStr (h : Str) : Bool :=
  match h with
  | [] => true
  | c :: _ => c.toNat = 35

/-- Well-formedness of a `URLRec`, as guaranteed for `parseURL` outputs. -/
def validURL (u : URLRec) : Bool :=
  validScheme u.scheme &&
  (if u.slashes then
      !u.hostname.isEmpty &&
        u.hostname.all (fun c => notHostDelim c && !isHostBad c) &&
        decide (toLowerStr u.hostname = u.hostname) &&
        headCodeIs 47 u.pathname
   else u.hostname.isEmpty && !startsWith2Codes 47 47 u.pathname) &&
  u.pathname.all notHashQm &&
  validSearch u.search &&
  validHashStr u.hash

/-! ## Character-level lemmas -/

theorem char_eq_of_toNat_eq {a b : Char} (h : a.toNat = b.toNat) : a = b :=
  Char.ext (UInt32.ext h)

theorem toNat_ofNat_valid {n : Nat} (h : n < 55296) : (Char.ofNat n).toNat = n := by
  have hv : n.isValidChar := Or.inl h
  simp [Char.ofNat, dif_pos hv, Char.ofNatAux, Char.toNat, UInt32.toNat]

/-- `Char.toLower` either fixes a character or shifts an ASCII capital by 32. -/
theorem toLower_toNat (c : Char) :
    (¬(65 ≤ c.toNat ∧ c.toNat ≤ 90) ∧ c.toLower = c) ∨
      (65 ≤ c.toNat ∧ c.toNat ≤ 90 ∧ c.toLower.toNat = c.toNat + 32) := by
  by_cases h : 65 ≤ c.toNat ∧ c.toNat ≤ 90
  · right
    refine ⟨h.1, h.2, ?_⟩
    have hl : c.toLower = Char.ofNat (c.toNat + 32) := by
      simp only [Char.toLower]
      rw [if_pos h]
    rw [hl, toNat_ofNat_valid (by omega)]
  · left
    refine ⟨h, ?_⟩
    simp only [Char.toLower]
    rw [if_neg h]

theorem toLower_idem (c : Char) : c.toLower.toLower = c.toLower := by
  rcases toLower_toNat c with ⟨_, h⟩ | ⟨hlo, hhi, h⟩
  · rw [h, h]
  · rcases toLower_toNat c.toLower with ⟨_, h2⟩ | ⟨h2, h3, _⟩
    · exact h2
    · omega

theorem toLowerStr_idem (s : Str) : toLowerStr (toLowerStr s) = toLowerStr s := by
  simp only [toLowerStr, List.map_map]
  exact List.map_congr_left (fun c _ => toLower_idem c)

/-- `Char.toLower` never produces a code point outside `[97, 122]` that the
input did not already have. -/
theorem toLower_code_preserve {c : Char} {m : Nat} (hm : m < 97 ∨ 122 < m)
    (h : c.toNat ≠ m) : c.toLower.toNat ≠ m := by
  rcases toLower_toNat c with ⟨_, he⟩ | ⟨_, _, he⟩
  · rw [he]; exact h
  · omega

theorem isSchemeHead_toLower {c : Char} (h : isSchemeHead c = true) :
    isSchemeHead c.toLower = true := by
  simp only [isSchemeHead, Bool.or_eq_true, decide_eq_true_eq] at h ⊢
  rcases toLower_toNat c with ⟨_, he⟩ | ⟨_, _, he⟩
  · rw [he]; exact h
  · omega

theorem isSchemeTail_toLower {c : Char} (h : isSchemeTail c = true) :
    isSchemeTail c.toLower = true := by
  simp only [isSchemeTail, isSchemeHead, Bool.or_eq_true, decide_eq_true_eq] at h ⊢
  rcases toLower_toNat c with ⟨_, he⟩ | ⟨_, _, he⟩
  · rw [he]; exact h
  · omega

theorem isSchemeHead_code {c : Char} (h : isSchemeHead c = true) :
    43 ≤ c.toNat ∧ c.toNat ≤ 122 ∧ c.toNat ≠ 58 ∧ c.toNat ≠ 35 ∧ c.toNat ≠ 63 ∧
      c.toNat ≠ 47 := by
  simp only [isSchemeHead, Bool.or_eq_true, decide_eq_true_eq] at h
  omega

theorem isSchemeTail_code {c : Char} (h : isSchemeTail c = true) :
    43 ≤ c.toNat ∧ c.toNat ≤ 122 ∧ c.toNat ≠ 58 ∧ c.toNat ≠ 35 ∧ c.toNat ≠ 63 ∧
      c.toNat ≠ 47 := by
  simp only [isSchemeTail, isSchemeHead, Bool.or_eq_true, decide_eq_true_eq] at h
  omega

theorem hostChar_toLower {c : Char}
    (h : (notHostDelim c && !isHostBad c) = true) :
    (notHostDelim c.toLower && !isHostBad c.toLower) = true := by
  simp only [notHostDelim, isHostDelim, isHostBad, Bool.and_eq_true, Bool.not_eq_true',
    Bool.or_eq_false_iff, decide_eq_false_iff_not] at h ⊢
  rcases toLower_toNat c with ⟨_, he⟩ | ⟨_, _, he⟩
  · rw [he]; exact h
  · omega

/-! ## List-level helper lemmas -/

theorem takeWhile_append_all {p : Char → Bool} {l₁ : Str} (l₂ : Str)
    (h : ∀ x ∈ l₁, p x = true) :
    (l₁ ++ l₂).takeWhile p = l₁ ++ l₂.takeWhile p := by
  induction l₁ with
  | nil => simp
  | cons c t ih =>
    have hc := h c (by simp)
    simp only [List.cons_append, List.takeWhile_cons, hc, if_true]
    rw [ih (fun x hx => h x (by simp [hx]))]

theorem dropWhile_append_all {p : Char → Bool} {l₁ : Str} (l₂ : Str)
    (h : ∀ x ∈ l₁, p x = true) :
    (l₁ ++ l₂).dropWhile p = l₂.dropWhile p := by
  induction l₁ with
  | nil => simp
  | cons c t ih =>
    have hc := h c (by simp)
    simp only [List.cons_append, List.dropWhile_cons, hc, if_true]
    exact ih (fun x hx => h x (by simp [hx]))

theorem takeWhile_eq_self_of_all {p : Char → Bool} {l : Str}
    (h : ∀ x ∈ l, p x = true) : l.takeWhile p = l := by
  have := @takeWhile_append_all p l [] h
  simpa using this

theorem dropWhile_eq_nil_of_all {p : Char → Bool} {l : Str}
    (h : ∀ x ∈ l, p x = true) : l.dropWhile p = [] := by
  have := @dropWhile_append_all p l [] h
  simpa using this

theorem dropWhile_head_false {p : Char → Bool} {l : Str} {c : Char} {t : Str}
    (h : l.dropWhile p = c :: t) : p c = false := by
  induction l with
  | nil => simp at h
  | cons a l' ih =>
    rw [List.dropWhile_cons] at h
    by_cases ha : p a
    · rw [if_pos ha] at h; exact ih h
    · rw [if_neg ha] at h
      cases h
      exact Bool.of_not_eq_true ha

theorem takeWhile_cons_shape {p : Char → Bool} {l : Str} {c : Char} {t : Str}
    (h : l.takeWhile p = c :: t) : p c = true ∧ ∃ t', l = c :: t' := by
  cases l with
  | nil => simp at h
  | cons a l' =>
    rw [List.takeWhile_cons] at h
    by_cases ha : p a
    · rw [if_pos ha] at h
      cases h
      exact ⟨ha, l', rfl⟩
    · rw [if_neg ha] at h; cases h

/-! ## Validity of parser outputs -/

theorem validScheme_toLower {s : Str} (h : schemeOk s = true) :
    validScheme (toLowerStr s) = true := by
  cases s with
  | nil => simp [schemeOk] at h
  | cons c cs =>
    simp only [schemeOk, Bool.and_eq_true, List.all_eq_true] at h
    simp only [validScheme, toLowerStr, List.map_cons, schemeOk, Bool.and_eq_true,
      List.all_eq_true, decide_eq_true_eq]
    refine ⟨⟨isSchemeHead_toLower h.1, ?_⟩, ?_⟩
    · intro x hx
      obtain ⟨y, hy, rfl⟩ := List.mem_map.mp hx
      exact isSchemeTail_toLower (h.2 y hy)
    · have := toLowerStr_idem (c :: cs)
      simpa [toLowerStr] using this

theorem validHashStr_dropWhile (t : Str) :
    validHashStr (t.dropWhile notHash) = true := by
  cases hd : t.dropWhile notHash with
  | nil => simp [validHashStr]
  | cons c r =>
    have hf := dropWhile_head_false hd
    simp only [notHash, decide_eq_false_iff_not, not_not] at hf
    simp [validHashStr, hf]

theorem parseSearchHash_valid {rest : Str}
    (h : ∀ c t, rest = c :: t → notHashQm c = false) :
    validSearch (parseSearchHash rest).1 = true ∧
      validHashStr (parseSearchHash rest).2 = true := by
  unfold parseSearchHash
  by_cases hq : headCodeIs 63 rest = true
  · rw [if_pos hq]
    cases rest with
    | nil => simp [headCodeIs] at hq
    | cons c t =>
      refine ⟨?_, ?_⟩
      · simp only [List.tail_cons, validSearch, Bool.and_eq_true, decide_eq_true_eq,
          List.all_eq_true]
        refine ⟨by decide, fun x hx => List.mem_takeWhile_imp hx⟩
      · simpa using validHashStr_dropWhile t
  · rw [if_neg hq]
    refine ⟨by simp [validSearch], ?_⟩
    cases rest with
    | nil => simp [validHashStr]
    | cons c t =>
      have hc := h c t rfl
      simp only [notHashQm, Bool.and_eq_false_iff, decide_eq_false_iff_not, not_not] at hc
      simp only [headCodeIs] at hq
      rcases hc with hc | hc
      · simp [validHashStr, hc]
      · exact absurd (by simpa using hc) hq

theorem startsWith2Codes_takeWhile {p : Char → Bool} {l : Str} {m n : Nat}
    (h : startsWith2Codes m n l = false) :
    startsWith2Codes m n (l.takeWhile p) = false := by
  cases ht : l.takeWhile p with
  | nil => simp [startsWith2Codes]
  | cons c t =>
    cases t with
    | nil => simp [startsWith2Codes]
    | cons d t' =>
      have hpfx : List.takeWhile p l <+: l := List.takeWhile_prefix p
      obtain ⟨r, hr⟩ := hpfx
      rw [ht] at hr
      rw [← hr] at h
      simpa [startsWith2Codes] using h

/-- Every record produced by `parseURL` is well-formed. -/
theorem parse_valid {s : Str} {u : URLRec} (h : parseURL s = some u) :
    validURL u = true := by
  simp only [parseURL] at h
  split at h
  · exact Option.noConfusion h
  · split at h
    · exact Option.noConfusion h
    · rename_i hrest hso
      rw [Bool.not_eq_true'] at hso
      rw [Bool.not_eq_false] at hso
      split at h
      · -- authority branch
        rename_i hss
        split at h
        · exact Option.noConfusion h
        · rename_i hguard
          rw [Bool.not_eq_true, Bool.or_eq_false_iff] at hguard
          obtain ⟨hne, hbad⟩ := hguard
          injection h with h
          subst h
          simp only [validURL, Bool.and_eq_true]
          refine ⟨⟨⟨⟨validScheme_toLower hso, ?_⟩, ?_⟩, ?_⟩, ?_⟩
          · -- hostname and pathname conditions (slashes = true)
            simp only [if_true]
            simp only [Bool.and_eq_true]
            refine ⟨⟨⟨?_, ?_⟩, ?_⟩, ?_⟩
            · -- nonempty
              cases hhost : (((s.dropWhile notColon).tail.drop 2).takeWhile notHostDelim) with
              | nil => rw [hhost] at hne; simp at hne
              | cons c t => simp [hhost, toLowerStr]
            · -- character classes
              simp only [List.all_eq_true]
              intro x hx
              simp only [toLowerStr] at hx
              obtain ⟨y, hy, rfl⟩ := List.mem_map.mp hx
              have h1 : notHostDelim y = true := List.mem_takeWhile_imp hy
              have h2 : isHostBad y = false := by
                rcases hb : isHostBad y with _ | _
                · rfl
                · exact absurd hbad (by rw [List.any_eq_true.mpr ⟨y, hy, hb⟩]; simp)
              exact hostChar_toLower (by simp [h1, h2])
            · simp only [decide_eq_true_eq]
              exact toLowerStr_idem _
            · -- pathname head is '/'
              split
              · decide
              · rename_i hp0
                rw [Bool.not_eq_true, List.isEmpty_eq_false_iff_exists_mem] at hp0
                cases hpath : ((((s.dropWhile notColon).tail.drop 2).dropWhile
                    notHostDelim).takeWhile notHashQm) with
                | nil => rw [hpath] at hp0; simp at hp0
                | cons c t =>
                  obtain ⟨hq, t', ht'⟩ := takeWhile_cons_shape hpath
                  have hdel : notHostDelim c = false := dropWhile_head_false ht'
                  simp only [notHostDelim] at hdel
                  rw [Bool.not_eq_false'] at hdel
                  simp only [isHostDelim, Bool.or_eq_true, decide_eq_true_eq] at hdel
                  simp only [notHashQm, Bool.and_eq_true, decide_eq_true_eq] at hq
                  simp only [headCodeIs, decide_eq_true_eq]
                  omega
          · -- pathname.all notHashQm
            split
            · decide
            · simp only [List.all_eq_true]
              intro x hx
              exact List.mem_takeWhile_imp hx
          · exact (parseSearchHash_valid (fun c t hct => dropWhile_head_false hct)).1
          · exact (parseSearchHash_valid (fun c t hct => dropWhile_head_false hct)).2
      · -- opaque branch
        rename_i hss
        rw [Bool.not_eq_true] at hss
        injection h with h
        subst h
        simp only [validURL, Bool.and_eq_true]
        refine ⟨⟨⟨⟨validScheme_toLower hso, ?_⟩, ?_⟩, ?_⟩, ?_⟩
        · rw [if_neg (by simp)]
          simp only [Bool.and_eq_true]
          refine ⟨by simp, ?_⟩
          rw [Bool.not_eq_true']
          exact startsWith2Codes_takeWhile hss
        · simp only [List.all_eq_true]
          intro x hx
          exact List.mem_takeWhile_imp hx
        · exact (parseSearchHash_valid (fun c t hct => dropWhile_head_false hct)).1
        · exact (parseSearchHash_valid (fun c t hct => dropWhile_head_false hct)).2

/-! ## Fragment stripping and the parse/serialize round trip -/

theorem validURL_parts {u : URLRec} (h : validURL u = true) :
    validScheme u.scheme = true ∧
      (u.slashes = true →
        u.hostname.isEmpty = false ∧
          u.hostname.all (fun c => notHostDelim c && !isHostBad c) = true ∧
          toLowerStr u.hostname = u.hostname ∧ headCodeIs 47 u.pathname = true) ∧
      (u.slashes = false →
        u.hostname = [] ∧ startsWith2Codes 47 47 u.pathname = false) ∧
      u.pathname.all notHashQm = true ∧ validSearch u.search = true ∧
      validHashStr u.hash = true := by
  simp only [validURL, Bool.and_eq_true] at h
  obtain ⟨⟨⟨⟨h1, h2⟩, h3⟩, h4⟩, h5⟩ := h
  refine ⟨h1, ?_, ?_, h3, h4, h5⟩
  · intro hs
    rw [hs] at h2
    simp only [if_true, Bool.and_eq_true, Bool.not_eq_true', decide_eq_true_eq] at h2
    exact ⟨h2.1.1.1, h2.1.1.2, h2.1.2, h2.2⟩
  · intro hs
    rw [hs] at h2
    simp only [Bool.false_eq_true, if_false, Bool.and_eq_true, Bool.not_eq_true',
      List.isEmpty_eq_true] at h2
    exact h2

theorem schemeOk_chars {s : Str} (h : schemeOk s = true) :
    ∀ x ∈ s, notColon x = true ∧ notHash x = true := by
  intro x hx
  cases s with
  | nil => simp [schemeOk] at h
  | cons c cs =>
    simp only [schemeOk, Bool.and_eq_true, List.all_eq_true] at h
    have hcode : 43 ≤ x.toNat ∧ x.toNat ≤ 122 ∧ x.toNat ≠ 58 ∧ x.toNat ≠ 35 ∧
        x.toNat ≠ 63 ∧ x.toNat ≠ 47 := by
      rcases List.mem_cons.mp hx with rfl | hx'
      · exact isSchemeHead_code h.1
      · exact isSchemeTail_code (h.2 x hx')
    constructor <;> simp only [notColon, notHash, decide_eq_true_eq] <;> omega

theorem hostChars_of_all {host : Str}
    (h : host.all (fun c => notHostDelim c && !isHostBad c) = true) :
    ∀ x ∈ host, notHostDelim x = true ∧ notHash x = true ∧ notColon x = true := by
  intro x hx
  have hx' := List.all_eq_true.mp h x hx
  simp only [Bool.and_eq_true, Bool.not_eq_true'] at hx'
  obtain ⟨hd, hb⟩ := hx'
  refine ⟨hd, ?_, ?_⟩
  · have hd' : isHostDelim x = false := by
      have := hd
      simp only [notHostDelim] at this
      rwa [Bool.not_eq_true'] at this
    simp only [isHostDelim, Bool.or_eq_false_iff, decide_eq_false_iff_not] at hd'
    simp only [notHash, decide_eq_true_eq]
    omega
  · simp only [isHostBad, Bool.or_eq_false_iff, decide_eq_false_iff_not] at hb
    simp only [notColon, decide_eq_true_eq]
    omega

theorem seaChars_notHash {sea : Str} (hs : validSearch sea = true) :
    ∀ x ∈ sea, notHash x = true := by
  cases sea with
  | nil => intro x hx; simp at hx
  | cons c q =>
    simp only [validSearch, Bool.and_eq_true, decide_eq_true_eq, List.all_eq_true] at hs
    intro x hx
    rcases List.mem_cons.mp hx with rfl | hx'
    · simp only [notHash, decide_eq_true_eq]; omega
    · exact hs.2 x hx'

theorem notHashQm_notHash {c : Char} (h : notHashQm c = true) : notHash c = true := by
  simp only [notHashQm, Bool.and_eq_true, decide_eq_true_eq] at h
  simp only [notHash, decide_eq_true_eq]
  exact h.1

theorem takeWhile_validHashStr {ha : Str} (hh : validHashStr ha = true) :
    ha.takeWhile notHash = [] := by
  cases ha with
  | nil => rfl
  | cons c t =>
    simp only [validHashStr, decide_eq_true_eq] at hh
    have hc : notHash c = false := by simp [notHash, hh]
    simp [List.takeWhile_cons, hc]

/-- Splitting the serialized URL on `#` is the same as clearing `u.hash`
and re-serializing. -/
theorem beforeHash_href {u : URLRec} (h : validURL u = true) :
    beforeHash u.href = u.stripFragment.href := by
  obtain ⟨h1, h2, h3, h4, h5, h6⟩ := validURL_parts h
  have hsch : schemeOk u.scheme = true := by
    simp only [validScheme, Bool.and_eq_true] at h1
    exact h1.1
  have hpath : ∀ x ∈ u.pathname, notHash x = true :=
    fun x hx => notHashQm_notHash (List.all_eq_true.mp h4 x hx)
  have hsea := seaChars_notHash h5
  have hmid : ∀ x ∈ (if u.slashes then ['/', '/'] ++ u.hostname else ([] : Str)),
      notHash x = true := by
    cases hsl : u.slashes with
    | false => simp
    | true =>
      rw [if_pos rfl]
      intro x hx
      rcases List.mem_append.mp hx with hx' | hx'
      · have hx2 : x = '/' := by simpa using hx'
        subst hx2
        decide
      · exact (hostChars_of_all (h2 hsl).2.1 x hx').2.1
  have hpre : ∀ x ∈ u.scheme ++ [':'] ++
      (if u.slashes then ['/', '/'] ++ u.hostname else ([] : Str)) ++
      u.pathname ++ u.search, notHash x = true := by
    intro x hx
    rcases List.mem_append.mp hx with hx | hx
    · rcases List.mem_append.mp hx with hx | hx
      · rcases List.mem_append.mp hx with hx | hx
        · rcases List.mem_append.mp hx with hx | hx
          · exact (schemeOk_chars hsch x hx).2
          · have hx2 : x = ':' := by simpa using hx
            subst hx2
            decide
        · exact hmid x hx
      · exact hpath x hx
    · exact hsea x hx
  have hsplit : u.href = (u.scheme ++ [':'] ++
      (if u.slashes then ['/', '/'] ++ u.hostname else ([] : Str)) ++
      u.pathname ++ u.search) ++ u.hash := by
    simp [URLRec.href, List.append_assoc]
  rw [beforeHash, hsplit, takeWhile_append_all _ hpre, takeWhile_validHashStr h6]
  simp [URLRec.stripFragment, URLRec.href]

theorem stripFragment_valid {u : URLRec} (h : validURL u = true) :
    validURL u.stripFragment = true := by
  simp only [validURL, URLRec.stripFragment] at h ⊢
  simp only [Bool.and_eq_true] at h ⊢
  exact ⟨h.1, by simp [validHashStr]⟩

theorem dropWhile_validHashStr {ha : Str} (hh : validHashStr ha = true) :
    ha.dropWhile notHash = ha := by
  cases ha with
  | nil => rfl
  | cons c t =>
    simp only [validHashStr, decide_eq_true_eq] at hh
    have hc : notHash c = false := by simp [notHash, hh]
    simp [List.dropWhile_cons, hc]

/-- Scanning `search ++ hash` recovers exactly the two components. -/
theorem parseSearchHash_append {sea ha : Str} (hs : validSearch sea = true)
    (hh : validHashStr ha = true) :
    (sea ++ ha).takeWhile notHashQm = [] ∧ (sea ++ ha).dropWhile notHashQm = sea ++ ha ∧
      parseSearchHash (sea ++ ha) = (sea, ha) := by
  cases sea with
  | nil =>
    cases ha with
    | nil => exact ⟨rfl, rfl, rfl⟩
    | cons c t =>
      simp only [validHashStr, decide_eq_true_eq] at hh
      have hq : notHashQm c = false := by simp [notHashQm, hh]
      have h63 : headCodeIs 63 (c :: t) = false := by simp [headCodeIs, hh]
      refine ⟨?_, ?_, ?_⟩
      · simp [List.takeWhile_cons, hq]
      · simp [List.dropWhile_cons, hq]
      · simp [parseSearchHash, h63]
  | cons c q =>
    simp only [validSearch, Bool.and_eq_true, decide_eq_true_eq, List.all_eq_true] at hs
    obtain ⟨hc, hq⟩ := hs
    have hqm : notHashQm c = false := by simp [notHashQm, hc]
    have hch : c = '?' := char_eq_of_toNat_eq (by rw [hc]; decide)
    have hqn : ∀ x ∈ q, notHash x = true := hq
    refine ⟨?_, ?_, ?_⟩
    · simp [List.cons_append, List.takeWhile_cons, hqm]
    · simp [List.cons_append, List.dropWhile_cons, hqm]
    · have h63 : headCodeIs 63 (c :: (q ++ ha)) = true := by simp [headCodeIs, hc]
      simp only [List.cons_append, parseSearchHash, h63, if_true, List.tail_cons]
      rw [takeWhile_append_all _ hqn, takeWhile_validHashStr hh,
        dropWhile_append_all _ hqn, dropWhile_validHashStr hh, List.append_nil]
      rw [hch]

theorem startsWith2_path_sea_ha {path sea ha : Str}
    (hp : startsWith2Codes 47 47 path = false) (hs : validSearch sea = true)
    (hh : validHashStr ha = true) :
    startsWith2Codes 47 47 (path ++ (sea ++ ha)) = false := by
  have hsea_head : ∀ d t, sea ++ ha = d :: t → d.toNat ≠ 47 := by
    intro d t hdt
    cases sea with
    | nil =>
      cases ha with
      | nil => simp at hdt
      | cons c2 t2 =>
        simp only [validHashStr, decide_eq_true_eq] at hh
        simp only [List.nil_append] at hdt
        cases hdt
        omega
    | cons c2 q2 =>
      simp only [validSearch, Bool.and_eq_true, decide_eq_true_eq] at hs
      simp only [List.cons_append] at hdt
      cases hdt
      omega
  cases path with
  | nil =>
    simp only [List.nil_append]
    cases hsh : sea ++ ha with
    | nil => rfl
    | cons d t =>
      have := hsea_head d t hsh
      cases t with
      | nil => rfl
      | cons d2 t2 => simp [startsWith2Codes, this]
  | cons p0 pt =>
    cases pt with
    | nil =>
      simp only [List.cons_append, List.nil_append]
      cases hsh : sea ++ ha with
      | nil => rfl
      | cons d t =>
        have := hsea_head d t hsh
        simp [startsWith2Codes, this]
    | cons p1 pt' =>
      simp only [List.cons_append]
      simpa [startsWith2Codes] using hp

/-- Round trip: re-parsing the serialization of a well-formed URL record
recovers the record. -/
theorem parse_href {u : URLRec} (h : validURL u = true) : parseURL u.href = some u := by
  obtain ⟨h1, h2, h3, h4, h5, h6⟩ := validURL_parts h
  have hso : schemeOk u.scheme = true := by
    simp only [validScheme, Bool.and_eq_true] at h1
    exact h1.1
  have hlo : toLowerStr u.scheme = u.scheme := by
    simp only [validScheme, Bool.and_eq_true, decide_eq_true_eq] at h1
    exact h1.2
  have hschChars : ∀ x ∈ u.scheme, notColon x = true :=
    fun x hx => (schemeOk_chars hso x hx).1
  have hcolon : notColon ':' = false := by decide
  have hpathQm : ∀ x ∈ u.pathname, notHashQm x = true := List.all_eq_true.mp h4
  obtain ⟨hshTake, hshDrop, hshEq⟩ := parseSearchHash_append h5 h6
  cases hsl : u.slashes with
  | true =>
    obtain ⟨hne, hall, hhostlo, hph⟩ := h2 hsl
    have hhostChars : ∀ x ∈ u.hostname, notHostDelim x = true :=
      fun x hx => (hostChars_of_all hall x hx).1
    have hanyb : u.hostname.any isHostBad = false := by
      rw [List.any_eq_false]
      intro x hx
      have hx' := List.all_eq_true.mp hall x hx
      simp only [Bool.and_eq_true, Bool.not_eq_true'] at hx'
      simp [hx'.2]
    cases hpath : u.pathname with
    | nil => rw [hpath] at hph; simp [headCodeIs] at hph
    | cons p0 pt =>
      have hp0 : p0.toNat = 47 := by
        rw [hpath] at hph
        simpa [headCodeIs] using hph
      have hp0d : notHostDelim p0 = false := by
        simp [notHostDelim, isHostDelim, hp0]
      have hhref : u.href = u.scheme ++
          (':' :: ('/' :: '/' :: (u.hostname ++ (u.pathname ++ (u.search ++ u.hash))))) := by
        simp [URLRec.href, hsl, List.append_assoc]
      have htake : u.href.takeWhile notColon = u.scheme := by
        rw [hhref, takeWhile_append_all _ hschChars]
        simp [List.takeWhile_cons, hcolon]
      have hdrop : u.href.dropWhile notColon =
          ':' :: ('/' :: '/' :: (u.hostname ++ (u.pathname ++ (u.search ++ u.hash)))) := by
        rw [hhref, dropWhile_append_all _ hschChars]
        simp [List.dropWhile_cons, hcolon]
      have hsw2 : startsWith2Codes 47 47
          ('/' :: '/' :: (u.hostname ++ (u.pathname ++ (u.search ++ u.hash)))) = true := by
        have h47 : ('/').toNat = 47 := by decide
        simp [startsWith2Codes, h47]
      have hhost_take : (u.hostname ++ (u.pathname ++ (u.search ++ u.hash))).takeWhile
          notHostDelim = u.hostname := by
        rw [takeWhile_append_all _ hhostChars, hpath]
        simp [List.takeWhile_cons, hp0d]
      have hhost_drop : (u.hostname ++ (u.pathname ++ (u.search ++ u.hash))).dropWhile
          notHostDelim = u.pathname ++ (u.search ++ u.hash) := by
        rw [dropWhile_append_all _ hhostChars, hpath]
        simp [List.dropWhile_cons, hp0d]
      have hpath_take : (u.pathname ++ (u.search ++ u.hash)).takeWhile notHashQm =
          u.pathname := by
        rw [takeWhile_append_all _ hpathQm, hshTake, List.append_nil]
      have hpath_drop : (u.pathname ++ (u.search ++ u.hash)).dropWhile notHashQm =
          u.search ++ u.hash := by
        rw [dropWhile_append_all _ hpathQm, hshDrop]
      have hpne : u.pathname.isEmpty = false := by rw [hpath]; simp
      simp only [parseURL, htake, hdrop, List.isEmpty_cons, Bool.false_eq_true, if_false,
        hso, Bool.not_true, List.tail_cons, hsw2, eq_self_iff_true, if_true,
        List.drop_succ_cons, List.drop_zero, hhost_take, hhost_drop, hne, hanyb,
        Bool.or_false, hpath_take, hpath_drop, hshEq, hpne, hlo, hhostlo]
      rw [← hsl]
  | false =>
    obtain ⟨hhostnil, hsw2p⟩ := h3 hsl
    have hhref : u.href = u.scheme ++
        (':' :: (u.pathname ++ (u.search ++ u.hash))) := by
      simp [URLRec.href, hsl, List.append_assoc]
    have htake : u.href.takeWhile notColon = u.scheme := by
      rw [hhref, takeWhile_append_all _ hschChars]
      simp [List.takeWhile_cons, hcolon]
    have hdrop : u.href.dropWhile notColon =
        ':' :: (u.pathname ++ (u.search ++ u.hash)) := by
      rw [hhref, dropWhile_append_all _ hschChars]
      simp [List.dropWhile_cons, hcolon]
    have hsw2 : startsWith2Codes 47 47 (u.pathname ++ (u.search ++ u.hash)) = false :=
      startsWith2_path_sea_ha hsw2p h5 h6
    have hpath_take : (u.pathname ++ (u.search ++ u.hash)).takeWhile notHashQm =
        u.pathname := by
      rw [takeWhile_append_all _ hpathQm, hshTake, List.append_nil]
    have hpath_drop : (u.pathname ++ (u.search ++ u.hash)).dropWhile notHashQm =
        u.search ++ u.hash := by
      rw [dropWhile_append_all _ hpathQm, hshDrop]
    simp only [parseURL, htake, hdrop, List.isEmpty_cons, Bool.false_eq_true, if_false,
      hso, Bool.not_true, List.tail_cons, hsw2, hpath_take, hpath_drop, hshEq, hlo]
    rw [← hsl, ← hhostnil]

/-- For any parser output `u`, splitting `u.href` on `#` and re-parsing
yields exactly the fragment-cleared record. -/
theorem parse_beforeHash {s : Str} {u : URLRec} (h : parseURL s = some u) :
    parseURL (beforeHash u.href) = some u.stripFragment ∧
      beforeHash u.href = u.stripFragment.href := by
  have hv := parse_valid h
  have hb := beforeHash_href hv
  exact ⟨by rw [hb]; exact parse_href (stripFragment_valid hv), hb⟩

/-! ## Discovery-set, table and per-link helper lemmas -/

theorem mem_record_iff {s : List Str} {x y : Str} : y ∈ record s x ↔ y ∈ s ∨ y = x := by
  by_cases h : x ∈ s
  · rw [record, if_pos h]
    constructor
    · exact Or.inl
    · rintro (h' | rfl)
      · exact h'
      · exact h
  · rw [record, if_neg h]
    simp

theorem record_nodup {s : List Str} {x : Str} (h : s.Nodup) : (record s x).Nodup := by
  by_cases hx : x ∈ s
  · rw [record, if_pos hx]
    exact h
  · rw [record, if_neg hx]
    simp [List.nodup_append, h, hx]

theorem alistFind_set {α : Type} (k k' : Str) (v : α) (m : List (Str × α)) :
    alistFind k (alistSet k' v m) = if k' = k then some v else alistFind k m := by
  induction m with
  | nil =>
    by_cases h : k' = k
    · simp [alistSet, alistFind, h]
    · simp [alistSet, alistFind, h]
  | cons hd tl ih =>
    obtain ⟨k0, v0⟩ := hd
    by_cases h1 : k0 = k'
    · subst h1
      by_cases h2 : k0 = k
      · simp [alistSet, alistFind, h2]
      · simp [alistSet, alistFind, h2]
    · by_cases h2 : k0 = k
      · subst h2
        have h3 : ¬k' = k0 := fun h => h1 h.symm
        simp [alistSet, alistFind, h1, h3]
      · simp [alistSet, alistFind, h1, h2, ih]

theorem normalizePathPfx_startEnd (pathname : Str) :
    strStartsWith (normalizePathPfx pathname) ['/'] = true ∧
      strEndsWith (normalizePathPfx pathname) ['/'] = true := by
  unfold normalizePathPfx
  split
  · exact ⟨by decide, by decide⟩
  · have hstart : ∀ q : Str,
        strStartsWith (if strStartsWith q ['/'] then q else '/' :: q) ['/'] = true := by
      intro q
      by_cases h : strStartsWith q ['/'] = true
      · rw [if_pos h]
        exact h
      · rw [if_neg h]
        simp [strStartsWith, List.isPrefixOf_iff_prefix]
    dsimp only
    have hp1 : strStartsWith (if strStartsWith (trimStr pathname) ['/'] then trimStr pathname
        else '/' :: trimStr pathname) ['/'] = true := hstart (trimStr pathname)
    generalize hq : (if strStartsWith (trimStr pathname) ['/'] then trimStr pathname
        else '/' :: trimStr pathname) = p1 at hp1 ⊢
    by_cases h2 : strEndsWith p1 ['/'] = true
    · rw [if_pos h2]
      exact ⟨hp1, h2⟩
    · rw [if_neg h2]
      constructor
      · simp only [strStartsWith, List.isPrefixOf_iff_prefix] at hp1 ⊢
        exact hp1.trans (List.prefix_append _ _)
      · simp [strEndsWith, List.isSuffixOf_iff_suffix]

/-- Reduction of the per-href handler body on an asset link. -/
theorem processHref_asset {cfg : ScopeCfg} {d : List Str} {href : Str} {u0 u : URLRec}
    (hskip : isSkippableScheme href = false) (hp0 : parseURL href = some u0)
    (hp : parseURL (beforeHash u0.href) = some u)
    (ha : isLikelyBinaryAsset u.pathname = true) :
    processHref cfg d href =
      if ((!cfg.sameDomainOnly || decide (u.hostname ∈ cfg.allowedHostnames)) &&
            assetMatchesScope u cfg.hostScopeTokens) = true
      then record d u.href else d := by
  simp only [processHref, hskip, Bool.false_eq_true, if_false, hp0, hp, ha,
    eq_self_iff_true, if_true]

/-- Reduction of the per-href handler body on a page (non-asset) link. -/
theorem processHref_page {cfg : ScopeCfg} {d : List Str} {href : Str} {u0 u : URLRec}
    (hskip : isSkippableScheme href = false) (hp0 : parseURL href = some u0)
    (hp : parseURL (beforeHash u0.href) = some u)
    (ha : isLikelyBinaryAsset u.pathname = false) :
    processHref cfg d href =
      if isInScope u cfg.sameDomainOnly cfg.allowedHostnames cfg.hostPrefixes = true
      then record d u.href else d := by
  simp only [processHref, hskip, Bool.false_eq_true, if_false, hp0, hp, ha]

/-- Any string newly inserted by `processHref` is a fragment-free
serialization. -/
theorem processHref_newMember {cfg : ScopeCfg} {d : List Str} {href y : Str}
    (hy : y ∈ processHref cfg d href) : y ∈ d ∨ beforeHash y = y := by
  by_cases hskip : isSkippableScheme href = true
  · rw [processHref, if_pos hskip] at hy
    exact Or.inl hy
  · rw [Bool.not_eq_true] at hskip
    cases hp0 : parseURL href with
    | none =>
      rw [processHref, if_neg (by simp [hskip]), hp0] at hy
      exact Or.inl hy
    | some u0 =>
      obtain ⟨hre, _⟩ := parse_beforeHash hp0
      have hnf : beforeHash u0.stripFragment.href = u0.stripFragment.href := by
        have h := beforeHash_href (stripFragment_valid (parse_valid hp0))
        rwa [show u0.stripFragment.stripFragment = u0.stripFragment from rfl] at h
      by_cases ha : isLikelyBinaryAsset u0.stripFragment.pathname = true
      · rw [processHref_asset hskip hp0 hre ha] at hy
        split at hy
        · rcases mem_record_iff.mp hy with h | rfl
          · exact Or.inl h
          · exact Or.inr hnf
        · exact Or.inl hy
      · rw [Bool.not_eq_true] at ha
        rw [processHref_page hskip hp0 hre ha] at hy
        split at hy
        · rcases mem_record_iff.mp hy with h | rfl
          · exact Or.inl h
          · exact Or.inr hnf
        · exact Or.inl hy

theorem processHref_nodup {cfg : ScopeCfg} {d : List Str} (href : Str)
    (h : d.Nodup) : (processHref cfg d href).Nodup := by
  unfold processHref
  split
  · exact h
  · split
    · exact h
    · dsimp only
      split
      · exact h
      · split
        · split
          · exact record_nodup h
          · exact h
        · split
          · exact record_nodup h
          · exact h

@[simp] theorem stripFragment_scheme (u : URLRec) : u.stripFragment.scheme = u.scheme := rfl

@[simp] theorem stripFragment_pathname (u : URLRec) :
    u.stripFragment.pathname = u.pathname := rfl

@[simp] theorem stripFragment_hostname (u : URLRec) :
    u.stripFragment.hostname = u.hostname := rfl

@[simp] theorem stripFragment_idem (u : URLRec) :
    u.stripFragment.stripFragment = u.stripFragment := rfl

/-- Reduction of `transformRequestFunction` on a parseable candidate into a
single guarded decision. -/
theorem transformRequest_eq (cfg : ScopeCfg) (reqUrl : Str) {u0 : URLRec}
    (hp : parseURL reqUrl = some u0) :
    transformRequest cfg reqUrl =
      if ((decide (u0.scheme = str "http") || decide (u0.scheme = str "https")) &&
            isInScope u0.stripFragment cfg.sameDomainOnly cfg.allowedHostnames
              cfg.hostPrefixes &&
            !isLikelyBinaryAsset u0.pathname) = true
      then some u0.stripFragment.href else none := by
  simp only [transformRequest, hp]
  cases hA : (decide (u0.scheme = str "http") || decide (u0.scheme = str "https")) <;>
    cases hB : isInScope u0.stripFragment cfg.sameDomainOnly cfg.allowedHostnames
        cfg.hostPrefixes <;>
      cases hC : isLikelyBinaryAsset u0.pathname <;>
        simp [hA, hB, hC]

/-! ## Claim theorems -/

/-- C8: the URL Normalizer is idempotent — normalizing a string that is
already a normalizer output (an absolute URL with its fragment removed)
yields the same string. -/
theorem normalizeHref_idem {s t : Str} (h : normalizeHref s = some t) :
    normalizeHref t = some t := by
  simp only [normalizeHref] at h ⊢
  cases hp : parseURL s with
  | none => rw [hp] at h; simp at h
  | some u =>
    rw [hp] at h
    simp only [Option.map_some'] at h
    injection h with h
    obtain ⟨hre, heq⟩ := parse_beforeHash hp
    rw [← h, hre]
    simp only [Option.map_some']
    have h2 : beforeHash u.stripFragment.href = u.stripFragment.href := by
      have h3 := beforeHash_href (stripFragment_valid (parse_valid hp))
      rwa [show u.stripFragment.stripFragment = u.stripFragment from rfl] at h3
    rw [h2, ← heq]

/-- C8 witness: a concrete already-normalized URL re-normalizes to itself. -/
theorem normalizeHref_idem_witness :
    normalizeHref (str "https://example.com/a#b") = some (str "https://example.com/a") ∧
      normalizeHref (str "https://example.com/a") = some (str "https://example.com/a") :=
  ⟨by decide,
   @normalizeHref_idem (str "https://example.com/a#b") (str "https://example.com/a")
     (by decide)⟩

/-- C5: for every candidate URL, the Scope Policy verdict computed inside
the Frontier Filter (`transformRequestFunction`: parse, clear `u.hash`,
`isInScope`) equals the verdict computed along the explicit per-page
extraction path of `requestHandler` (parse, split the string on `#`,
re-parse, `isInScope`); the two paths never disagree. -/
theorem scopeVerdict_paths_agree (cfg : ScopeCfg) (url : Str) :
    extractionScopeVerdict cfg url = frontierScopeVerdict cfg url := by
  cases hp : parseURL url with
  | none => simp [extractionScopeVerdict, frontierScopeVerdict, hp]
  | some u0 =>
    obtain ⟨hre, _⟩ := parse_beforeHash hp
    simp [extractionScopeVerdict, frontierScopeVerdict, hp, hre]

/-- C1: Scope Policy, page variant.  With `sameDomainOnly = true` a URL is
admissible only if its hostname is in the Allowed Hostname Set; on an
admissible hostname with a non-empty Path Prefix Table entry, the URL is
admissible iff its normalized pathname starts with at least one recorded
prefix (OR across prefixes); with an empty or absent entry every path is
admissible.  With seed `https://example.com/dubai/`:
`https://example.com/dubai/villas` is in-scope,
`https://example.com/sharjah/villas` and `https://other.com/dubai/` are
out-of-scope. -/
theorem scopePolicy_page_spec :
    (∀ (u : URLRec) (allowed : List Str) (hp : List (Str × List Str)),
        isInScope u true allowed hp = true → u.hostname ∈ allowed) ∧
      (∀ (u : URLRec) (sdo : Bool) (allowed : List Str) (hp : List (Str × List Str))
          (prefixes : List Str),
          (sdo = false ∨ u.hostname ∈ allowed) →
          alistFind u.hostname hp = some prefixes → prefixes ≠ [] →
          (isInScope u sdo allowed hp = true ↔
            ∃ p ∈ prefixes,
              strStartsWith
                (normalizePathPfx (if u.pathname.isEmpty then ['/'] else u.pathname))
                p = true)) ∧
      (∀ (u : URLRec) (sdo : Bool) (allowed : List Str) (hp : List (Str × List Str)),
          (sdo = false ∨ u.hostname ∈ allowed) →
          (alistFind u.hostname hp = none ∨ alistFind u.hostname hp = some []) →
          isInScope u sdo allowed hp = true) ∧
      (parseURL (str "https://example.com/dubai/villas")).map
          (fun u => isInScope u exampleCfg.sameDomainOnly exampleCfg.allowedHostnames
            exampleCfg.hostPrefixes) = some true ∧
      (parseURL (str "https://example.com/sharjah/villas")).map
          (fun u => isInScope u exampleCfg.sameDomainOnly exampleCfg.allowedHostnames
            exampleCfg.hostPrefixes) = some false ∧
      (parseURL (str "https://other.com/dubai/")).map
          (fun u => isInScope u exampleCfg.sameDomainOnly exampleCfg.allowedHostnames
            exampleCfg.hostPrefixes) = some false := by
  refine ⟨?_, ?_, ?_, by decide, by decide, by decide⟩
  · intro u allowed hp h
    by_cases hmem : u.hostname ∈ allowed
    · exact hmem
    · exfalso
      rw [isInScope, if_pos (by simp [hmem])] at h
      exact Bool.noConfusion h
  · intro u sdo allowed hp prefixes hadm hfind hne
    have hcond : (sdo && !decide (u.hostname ∈ allowed)) = false := by
      rcases hadm with h | h
      · simp [h]
      · simp [h]
    have hie : prefixes.isEmpty = false := by
      cases prefixes with
      | nil => exact absurd rfl hne
      | cons a l => rfl
    rw [isInScope, if_neg (by simp [hcond]), hfind]
    simp only [hie, Bool.not_false, if_true, List.any_eq_true]
  · intro u sdo allowed hp hadm hfind
    have hcond : (sdo && !decide (u.hostname ∈ allowed)) = false := by
      rcases hadm with h | h
      · simp [h]
      · simp [h]
    rw [isInScope, if_neg (by simp [hcond])]
    rcases hfind with h | h
    · rw [h]
    · rw [h]
      rfl

/-- C1 witness: the prefix characterization instantiated at the running
example. -/
theorem scopePolicy_page_spec_witness :
    isInScope ⟨str "https", true, str "example.com", str "/dubai/villas", [], []⟩ true
        [str "example.com"] [(str "example.com", [str "/dubai/"])] = true ↔
      ∃ p ∈ [str "/dubai/"],
        strStartsWith
          (normalizePathPfx (if (str "/dubai/villas").isEmpty then ['/']
            else str "/dubai/villas")) p = true :=
  scopePolicy_page_spec.2.1
    ⟨str "https", true, str "example.com", str "/dubai/villas", [], []⟩ true
    [str "example.com"] [(str "example.com", [str "/dubai/"])] [str "/dubai/"]
    (Or.inr (by decide)) (by decide) (by decide)

/-- C2: relaxed asset scope.  An asset link is recorded in the Discovery
Set iff its hostname passes the `sameDomainOnly` check AND
`assetMatchesScope` holds, where `assetMatchesScope` is true exactly when
the host has no scope-token entry, an empty one, or some token occurs as a
substring of the lower-cased pathname.  With seed
`https://example.com/dubai/`, `/downloads/dubai-brochure.pdf` is admitted
and `/downloads/sharjah-brochure.pdf` is not. -/
theorem assetScope_relaxed_spec :
    (∀ (u : URLRec) (tset : List (Str × List Str)),
        assetMatchesScope u tset = true ↔
          (alistFind u.hostname tset = none ∨ alistFind u.hostname tset = some [] ∨
            ∃ tokens, alistFind u.hostname tset = some tokens ∧
              ∃ t ∈ tokens, containsSub (toLowerStr u.pathname) t = true)) ∧
      (∀ (cfg : ScopeCfg) (d : List Str) (href : Str) (u0 u : URLRec),
          isSkippableScheme href = false → parseURL href = some u0 →
          parseURL (beforeHash u0.href) = some u →
          isLikelyBinaryAsset u.pathname = true →
          (u.href ∈ processHref cfg d href ↔
            u.href ∈ d ∨
              ((!cfg.sameDomainOnly || decide (u.hostname ∈ cfg.allowedHostnames)) &&
                assetMatchesScope u cfg.hostScopeTokens) = true)) ∧
      processHref exampleCfg [] (str "https://example.com/downloads/dubai-brochure.pdf") =
        [str "https://example.com/downloads/dubai-brochure.pdf"] ∧
      processHref exampleCfg [] (str "https://example.com/downloads/sharjah-brochure.pdf") =
        [] ∧
      isLikelyBinaryAsset (str "/downloads/dubai-brochure.pdf") = true ∧
      isLikelyBinaryAsset (str "/downloads/sharjah-brochure.pdf") = true := by
  refine ⟨?_, ?_, by decide, by decide, by decide, by decide⟩
  · intro u tset
    unfold assetMatchesScope
    cases hf : alistFind u.hostname tset with
    | none => simp
    | some tokens =>
      cases tokens with
      | nil => simp
      | cons t ts =>
        simp only [List.isEmpty_cons, Bool.false_eq_true, if_false, List.any_eq_true]
        constructor
        · intro h
          exact Or.inr (Or.inr ⟨t :: ts, rfl, h⟩)
        · rintro (h | h | ⟨tokens', ht', h⟩)
          · exact Option.noConfusion h
          · injection h with h
            exact absurd h (by simp)
          · injection ht' with ht'
            subst ht'
            exact h
  · intro cfg d href u0 u hskip hp0 hp ha
    rw [processHref_asset hskip hp0 hp ha]
    split
    · rename_i hcond
      rw [mem_record_iff]
      simp [hcond]
    · rename_i hcond
      constructor
      · exact Or.inl
      · rintro (h | h)
        · exact h
        · exact absurd h hcond

/-- C2 witness: the recording characterization instantiated at the
admitted example asset. -/
theorem assetScope_relaxed_spec_witness :
    (str "https://example.com/downloads/dubai-brochure.pdf") ∈
        processHref exampleCfg [] (str "https://example.com/downloads/dubai-brochure.pdf") ↔
      (str "https://example.com/downloads/dubai-brochure.pdf") ∈ ([] : List Str) ∨
        ((!exampleCfg.sameDomainOnly ||
            decide ((str "example.com") ∈ exampleCfg.allowedHostnames)) &&
          assetMatchesScope
            ⟨str "https", true, str "example.com", str "/downloads/dubai-brochure.pdf",
              [], []⟩ exampleCfg.hostScopeTokens) = true := by
  have h := assetScope_relaxed_spec.2.1 exampleCfg []
    (str "https://example.com/downloads/dubai-brochure.pdf")
    ⟨str "https", true, str "example.com", str "/downloads/dubai-brochure.pdf", [], []⟩
    ⟨str "https", true, str "example.com", str "/downloads/dubai-brochure.pdf", [], []⟩
    (by decide) (by decide) (by decide) (by decide)
  exact h

/-- C3: the Frontier Filter strips the fragment and accepts a candidate
iff its scheme is http or https, the Scope Policy (page variant) admits
it, and the Link Classifier does not mark it an asset; accepted candidates
are returned with the fragment stripped, an unparseable candidate is
rejected, and an asset is never accepted. -/
theorem frontierFilter_spec :
    (∀ (cfg : ScopeCfg) (reqUrl : Str), parseURL reqUrl = none →
        transformRequest cfg reqUrl = none) ∧
      (∀ (cfg : ScopeCfg) (reqUrl : Str) (u0 : URLRec), parseURL reqUrl = some u0 →
        (transformRequest cfg reqUrl = some u0.stripFragment.href ↔
          ((u0.scheme = str "http" ∨ u0.scheme = str "https") ∧
            isInScope u0.stripFragment cfg.sameDomainOnly cfg.allowedHostnames
              cfg.hostPrefixes = true ∧
            isLikelyBinaryAsset u0.pathname = false)) ∧
        (transformRequest cfg reqUrl = none ∨
          transformRequest cfg reqUrl = some u0.stripFragment.href) ∧
        (isLikelyBinaryAsset u0.pathname = true → transformRequest cfg reqUrl = none) ∧
        (∀ v, transformRequest cfg reqUrl = some v → beforeHash v = v)) := by
  refine ⟨fun cfg reqUrl h => by simp [transformRequest, h], ?_⟩
  intro cfg reqUrl u0 hp
  have hnf : beforeHash u0.stripFragment.href = u0.stripFragment.href := by
    have h3 := beforeHash_href (stripFragment_valid (parse_valid hp))
    rwa [stripFragment_idem] at h3
  rw [transformRequest_eq cfg reqUrl hp]
  refine ⟨?_, ?_, ?_, ?_⟩
  · split
    · rename_i hcond
      simp only [Bool.and_eq_true, Bool.or_eq_true, decide_eq_true_eq,
        Bool.not_eq_true'] at hcond
      obtain ⟨⟨hA, hB⟩, hC⟩ := hcond
      simp [hA, hB, hC]
    · rename_i hcond
      constructor
      · intro hsome
        exact absurd hsome (by simp)
      · rintro ⟨hA, hB, hC⟩
        exfalso
        refine hcond ?_
        rcases hA with h | h <;> simp [h, hB, hC]
  · split
    · exact Or.inr rfl
    · exact Or.inl rfl
  · intro hasset
    split
    · rename_i hcond
      simp only [Bool.and_eq_true, Bool.not_eq_true'] at hcond
      rw [hasset] at hcond
      exact absurd hcond.2 (by simp)
    · rfl
  · intro v hv
    split at hv
    · injection hv with hv
      rw [← hv]
      exact hnf
    · exact Option.noConfusion hv

/-- C3 witness: a concrete asset candidate is rejected by the Frontier
Filter. -/
theorem frontierFilter_spec_witness :
    transformRequest exampleCfg (str "https://example.com/dubai/file.pdf") = none :=
  (frontierFilter_spec.2 exampleCfg (str "https://example.com/dubai/file.pdf")
      ⟨str "https", true, str "example.com", str "/dubai/file.pdf", [], []⟩
      (by decide)).2.2.1 (by decide)

/-- C4 counterexample: with root seed `https://example.com/` and
`sameDomainOnly = true`, the page link `ftp://example.com/x` passes the
hostname and prefix checks and is recorded in the Discovery Set although
its scheme is neither http nor https. -/
theorem discoverySet_scheme_cex :
    processLinks (mkScopeCfg [str "https://example.com/"] true) []
        [str "ftp://example.com/x"] = [str "ftp://example.com/x"] ∧
      (parseURL (str "ftp://example.com/x")).map
          (fun u => decide (u.scheme = str "http" ∨ u.scheme = str "https")) =
        some false :=
  ⟨by decide, by decide⟩

/-- C4 (amended): after processing any sequence of page links starting
from a fragment-free Discovery Set, every member of the Discovery Set has
no fragment, and an href with a skippable scheme such as
`javascript:void(0)` is never recorded; however a member's scheme need not
be http or https (the handler never checks it — see the counterexample
with an ftp URL). -/
theorem discoverySet_noFragment_spec :
    (∀ (cfg : ScopeCfg) (d : List Str) (hrefs : List Str) (x : Str),
        (∀ y ∈ d, beforeHash y = y) → x ∈ processLinks cfg d hrefs →
        beforeHash x = x) ∧
      (∀ (cfg : ScopeCfg) (d : List Str),
        processHref cfg d (str "javascript:void(0)") = d) := by
  constructor
  · intro cfg d hrefs
    induction hrefs generalizing d with
    | nil =>
      intro x hd hx
      exact hd x hx
    | cons href rest ih =>
      intro x hd hx
      simp only [processLinks, List.foldl_cons] at hx
      refine ih (processHref cfg d href) x ?_ hx
      intro y hy
      rcases processHref_newMember hy with h | h
      · exact hd y h
      · exact h
  · intro cfg d
    have hskip : isSkippableScheme (str "javascript:void(0)") = true := by decide
    rw [processHref, if_pos hskip]

/-- C4 witness: a fragment-carrying href is recorded fragment-free. -/
theorem discoverySet_noFragment_spec_witness :
    beforeHash (str "https://example.com/dubai/villas") =
      str "https://example.com/dubai/villas" :=
  discoverySet_noFragment_spec.1 exampleCfg []
    [str "https://example.com/dubai/villas#sec"] (str "https://example.com/dubai/villas")
    (by intro y hy; simp at hy) (by decide)

/-- C6 counterexample: the recorded prefix keeps the seed path's letter
case — `https://example.com/Dubai/` records the prefix `/Dubai/`, which is
not lower-cased. -/
theorem pathPrefixTable_lowercase_cex :
    getHostnameToPathPrefixes [str "https://example.com/Dubai/"] =
        [(str "example.com", [str "/Dubai/"])] ∧
      toLowerStr (str "/Dubai/") ≠ str "/Dubai/" :=
  ⟨by decide, by decide⟩

/-- C6 (amended): every prefix recorded in the Path Prefix Table starts
and ends with '/', but it is recorded with the seed path's original letter
case (not lower-cased); a hostname whose only seed path is '/' records
exactly the single prefix '/', which every normalized pathname starts
with, so `isInScope` leaves such a hostname unconstrained. -/
theorem pathPrefixTable_spec :
    (∀ (urls : List Str) (host : Str) (prefixes : List Str),
        alistFind host (getHostnameToPathPrefixes urls) = some prefixes →
        ∀ p ∈ prefixes, strStartsWith p ['/'] = true ∧ strEndsWith p ['/'] = true) ∧
      (∀ pathname, strStartsWith (normalizePathPfx pathname) ['/'] = true) ∧
      getHostnameToPathPrefixes [str "https://example.com/"] =
        [(str "example.com", [str "/"])] ∧
      (∀ (u : URLRec) (sdo : Bool) (allowed : List Str) (hp : List (Str × List Str)),
        alistFind u.hostname hp = some [['/']] →
        (sdo = false ∨ u.hostname ∈ allowed) →
        isInScope u sdo allowed hp = true) := by
  have hinv : ∀ (urls : List Str) (m : List (Str × List Str)),
      (∀ host prefixes, alistFind host m = some prefixes →
        ∀ p ∈ prefixes, strStartsWith p ['/'] = true ∧ strEndsWith p ['/'] = true) →
      ∀ host prefixes, alistFind host (urls.foldl addSeedPfx m) = some prefixes →
        ∀ p ∈ prefixes, strStartsWith p ['/'] = true ∧ strEndsWith p ['/'] = true := by
    intro urls
    induction urls with
    | nil =>
      intro m hm
      simpa using hm
    | cons u rest ih =>
      intro m hm
      simp only [List.foldl_cons]
      refine ih _ ?_
      intro host prefixes hfind p hp
      unfold addSeedPfx at hfind
      cases hu : parseURL u with
      | none =>
        rw [hu] at hfind
        exact hm host prefixes hfind p hp
      | some uo =>
        rw [hu] at hfind
        dsimp only at hfind
        cases hfa : alistFind uo.hostname m with
        | none =>
          rw [hfa] at hfind
          simp only [Option.getD_none] at hfind
          rw [if_neg (by simp)] at hfind
          rw [alistFind_set] at hfind
          by_cases hh : uo.hostname = host
          · rw [if_pos hh] at hfind
            injection hfind with hfind
            subst hfind
            simp only [List.nil_append, List.mem_singleton] at hp
            subst hp
            exact normalizePathPfx_startEnd _
          · rw [if_neg hh] at hfind
            exact hm host prefixes hfind p hp
        | some arr0 =>
          rw [hfa] at hfind
          simp only [Option.getD_some] at hfind
          by_cases hmem :
              normalizePathPfx (if uo.pathname.isEmpty then ['/'] else uo.pathname) ∈ arr0
          · rw [if_pos hmem, alistFind_set] at hfind
            by_cases hh : uo.hostname = host
            · rw [if_pos hh] at hfind
              injection hfind with hfind
              subst hfind
              exact hm uo.hostname arr0 hfa p hp
            · rw [if_neg hh] at hfind
              exact hm host prefixes hfind p hp
          · rw [if_neg hmem, alistFind_set] at hfind
            by_cases hh : uo.hostname = host
            · rw [if_pos hh] at hfind
              injection hfind with hfind
              subst hfind
              rcases List.mem_append.mp hp with hp' | hp'
              · exact hm uo.hostname arr0 hfa p hp'
              · rw [List.mem_singleton] at hp'
                subst hp'
                exact normalizePathPfx_startEnd _
            · rw [if_neg hh] at hfind
              exact hm host prefixes hfind p hp
  refine ⟨?_, fun pathname => (normalizePathPfx_startEnd pathname).1, by decide, ?_⟩
  · intro urls host prefixes h
    refine hinv urls [] ?_ host prefixes h
    intro host' p' hf
    simp [alistFind] at hf
  · intro u sdo allowed hp hfind hadm
    have hcond : (sdo && !decide (u.hostname ∈ allowed)) = false := by
      rcases hadm with h | h <;> simp [h]
    rw [isInScope, if_neg (by simp [hcond]), hfind]
    simp only [List.isEmpty_cons, Bool.not_false, if_true, List.any_eq_true]
    exact ⟨['/'], by simp, (normalizePathPfx_startEnd _).1⟩

/-- C6 witness: the start/end-slash property at the running example's
recorded prefix. -/
theorem pathPrefixTable_spec_witness :
    strStartsWith (str "/dubai/") ['/'] = true ∧ strEndsWith (str "/dubai/") ['/'] = true :=
  pathPrefixTable_spec.1 [str "https://example.com/dubai/"] (str "example.com")
    [str "/dubai/"] (by decide) (str "/dubai/") (by decide)

/-- C7: `record` is an idempotent insert, no operation removes entries,
and `snapshot` returns exactly the recorded entries as a sorted sequence;
a Discovery Set built by the handler from a duplicate-free set stays
duplicate-free, so the snapshot is a duplicate-free ascending sequence of
exactly the recorded URLs. -/
theorem discoverySet_snapshot_spec :
    (∀ (s : List Str) (x : Str), record (record s x) x = record s x) ∧
      (∀ (s : List Str) (x y : Str), y ∈ s → y ∈ record s x) ∧
      (∀ s : List Str, List.Sorted (· ≤ ·) (snapshot s) ∧
        (∀ x, x ∈ snapshot s ↔ x ∈ s) ∧ (s.Nodup → (snapshot s).Nodup)) ∧
      (∀ (cfg : ScopeCfg) (d : List Str) (hrefs : List Str),
        d.Nodup → (processLinks cfg d hrefs).Nodup) := by
  refine ⟨?_, ?_, ?_, ?_⟩
  · intro s x
    have hx : x ∈ record s x := mem_record_iff.mpr (Or.inr rfl)
    rw [record, if_pos hx]
  · intro s x y hy
    exact mem_record_iff.mpr (Or.inl hy)
  · intro s
    refine ⟨List.sorted_insertionSort _ _, ?_, ?_⟩
    · intro x
      exact (List.perm_insertionSort _ s).mem_iff
    · intro h
      exact (List.perm_insertionSort _ s).nodup_iff.mpr h
  · intro cfg d hrefs
    induction hrefs generalizing d with
    | nil =>
      intro h
      exact h
    | cons href rest ih =>
      intro h
      simp only [processLinks, List.foldl_cons]
      exact ih _ (processHref_nodup href h)

/-- C7 witness: recording preserves earlier entries, and a concretely
built Discovery Set is duplicate-free. -/
theorem discoverySet_snapshot_spec_witness :
    (str "a") ∈ record [str "a"] (str "b") ∧
      (processLinks exampleCfg [] [str "https://example.com/dubai/villas"]).Nodup :=
  ⟨discoverySet_snapshot_spec.2.1 [str "a"] (str "b") (str "a") (by decide),
   discoverySet_snapshot_spec.2.2.2 exampleCfg [] [str "https://example.com/dubai/villas"]
     (by simp)⟩

/-- C9: the only run-level failure is the empty effective seed list, which
fails before any table construction; per-link and per-seed parse failures
are dropped silently (the state is left unchanged) and never abort. -/
theorem noSeed_failure_spec :
    (∀ (cliArgs : List Str) (startUrlEnv : Option Str),
        parseStartUrls cliArgs startUrlEnv = Except.error noSeedMsg ↔
          cliFiltered cliArgs = [] ∧ envFiltered startUrlEnv = []) ∧
      (∀ (cliArgs : List Str) (startUrlEnv : Option Str) (sdo : Bool) (e : Str),
        parseStartUrls cliArgs startUrlEnv = Except.error e →
        mainStart cliArgs startUrlEnv sdo = Except.error e) ∧
      (∀ (cliArgs : List Str) (startUrlEnv : Option Str),
        cliFiltered cliArgs ≠ [] ∨ envFiltered startUrlEnv ≠ [] →
        ∀ e, parseStartUrls cliArgs startUrlEnv ≠ Except.error e) ∧
      (∀ (cfg : ScopeCfg) (d : List Str) (href : Str),
        isSkippableScheme href = true ∨ parseURL href = none →
        processHref cfg d href = d) ∧
      (∀ (m : List (Str × List Str)) (u : Str), parseURL u = none → addSeedPfx m u = m) ∧
      (∀ (hosts : List Str) (u : Str), parseURL u = none → addHost hosts u = hosts) := by
  refine ⟨?_, ?_, ?_, ?_, ?_, ?_⟩
  · intro cliArgs startUrlEnv
    unfold parseStartUrls
    cases hc : cliFiltered cliArgs with
    | nil =>
      cases he : envFiltered startUrlEnv with
      | nil => simp [hc, he]
      | cons a l => simp [hc, he]
    | cons a l => simp [hc]
  · intro cliArgs startUrlEnv sdo e h
    unfold mainStart
    rw [h]
    rfl
  · intro cliArgs startUrlEnv hne e
    unfold parseStartUrls
    cases hc : cliFiltered cliArgs with
    | cons a l => simp [hc]
    | nil =>
      rcases hne with h | h
      · exact absurd hc h
      · cases he : envFiltered startUrlEnv with
        | nil => exact absurd he h
        | cons a l => simp [hc, he]
  · intro cfg d href h
    by_cases hs : isSkippableScheme href = true
    · rw [processHref, if_pos hs]
    · rcases h with h | h
      · exact absurd h hs
      · rw [processHref, if_neg hs, h]
  · intro m u h
    unfold addSeedPfx
    rw [h]
  · intro hosts u h
    unfold addHost
    rw [h]

/-- C9 witness: the empty seed configuration fails before table
construction. -/
theorem noSeed_failure_spec_witness :
    mainStart [] none true = Except.error noSeedMsg :=
  noSeed_failure_spec.2.1 [] none true noSeedMsg rfl

/-- C10: a hostname with no (or an empty) Scope Token Table entry — in
particular any hostname not derived from a seed, reachable when
`sameDomainOnly = false` — makes `assetMatchesScope` return true, so every
asset on such a host that passes the domain check is recorded. -/
theorem assetScope_unknownHost_spec :
    (∀ (u : URLRec) (tset : List (Str × List Str)),
        alistFind u.hostname tset = none ∨ alistFind u.hostname tset = some [] →
        assetMatchesScope u tset = true) ∧
      (∀ (cfg : ScopeCfg) (d : List Str) (href : Str) (u0 u : URLRec),
          isSkippableScheme href = false → parseURL href = some u0 →
          parseURL (beforeHash u0.href) = some u →
          isLikelyBinaryAsset u.pathname = true →
          (!cfg.sameDomainOnly || decide (u.hostname ∈ cfg.allowedHostnames)) = true →
          alistFind u.hostname cfg.hostScopeTokens = none →
          u.href ∈ processHref cfg d href) ∧
      processHref (mkScopeCfg [str "https://example.com/dubai/"] false) []
          (str "https://cdn.example.net/files/report.pdf") =
        [str "https://cdn.example.net/files/report.pdf"] := by
  have hams : ∀ (u : URLRec) (tset : List (Str × List Str)),
      alistFind u.hostname tset = none ∨ alistFind u.hostname tset = some [] →
      assetMatchesScope u tset = true := by
    intro u tset h
    unfold assetMatchesScope
    rcases h with h | h
    · rw [h]
    · rw [h]
      rfl
  refine ⟨hams, ?_, by decide⟩
  intro cfg d href u0 u hskip hp0 hp ha hhost hfind
  rw [processHref_asset hskip hp0 hp ha,
    if_pos (by rw [hhost, hams u cfg.hostScopeTokens (Or.inl hfind)]; rfl)]
  exact mem_record_iff.mpr (Or.inr rfl)

/-- C10 witness: a concrete asset on a non-seed host is recorded when
`sameDomainOnly = false`. -/
theorem assetScope_unknownHost_spec_witness :
    (URLRec.href ⟨str "https", true, str "cdn.example.net", str "/files/report.pdf",
        [], []⟩) ∈
      processHref (mkScopeCfg [str "https://example.com/dubai/"] false) []
        (str "https://cdn.example.net/files/report.pdf") :=
  assetScope_unknownHost_spec.2.1 (mkScopeCfg [str "https://example.com/dubai/"] false)
    [] (str "https://cdn.example.net/files/report.pdf")
    ⟨str "https", true, str "cdn.example.net", str "/files/report.pdf", [], []⟩
    ⟨str "https", true, str "cdn.example.net", str "/files/report.pdf", [], []⟩
    (by decide) (by decide) (by decide) (by decide) (by decide) (by decide)

end Crawler
